import Mathlib

/-!
Verification development for the noorlib repository.

`parser.js` discovers per-page JSON files, orders them by
(volume, section, page) parsed from the path, extracts hadith records from
HTML fragments (primary strategy), merges repeated occurrences of the same
identity, falls back to a regex-based extraction when the primary strategy
found nothing, and writes finalized records.

`translate.js` (the second source file) resumes from a partial
`hadiths_translated.json`, translates the remaining records one by one via a
retrying, key-rotating loop around an external service, and persists the
output file after every single record.

The embedding below is shallow: HTML-parsing library calls (cheerio
selections) are reflected as fields of the fragment structures holding the
selected text; file-system reads are a function from path to page content;
the external translation service is an oracle of per-attempt outcomes.
Machine-level aspects (JS numbers) do not arise: volumes, sections and pages
are small naturals produced by `Number` on digit strings.
-/

namespace Noorlib

open scoped List

/-- A hadith record as built by `parser.js` (`hadithsById` values):
`{ vol, sec, pages, id, title, ghael, sanad, parts }`. -/
structure Hadith where
  vol : Nat
  sec : Nat
  pages : List Nat
  id : String
  title : String
  ghael : String
  sanad : String
  parts : List String
deriving Repr, DecidableEq

/-- The `hadithsById` JS object: string keys to records, insertion ordered.
Modelled as an association list (keys stay unique because entries are only
added after a failed lookup). -/
abbrev HMap := List (String × Hadith)

/-- `hadithsById[k]` read access. -/
def lookupH (m : HMap) (k : String) : Option Hadith :=
  (m.find? (fun e => e.1 = k)).map (fun e => e.2)

/-- In-place mutation of the record stored at key `k` (JS mutates the object
held in the map; the key set and entry order are unchanged). -/
def updateH (m : HMap) (k : String) (h : Hadith) : HMap :=
  m.map (fun e => if e.1 = k then (k, h) else e)

/-! ## Path parsing: `/volume_(\d+)\/section_(\d+)\/page_(\d+)\.json$/`

The regex is end-anchored, so a path matches iff it decomposes as
`pre ++ "volume_" ++ V ++ "/section_" ++ S ++ "/page_" ++ P ++ ".json"`
with `V`, `S`, `P` nonempty digit runs; the decomposition is unique (the
runs are delimited by non-digit literals), so we parse from the end. -/

/-- Numeric value of a digit string (`Number` on a digit-only match). -/
def digitsVal (l : List Char) : Nat :=
  l.foldl (fun n c => n * 10 + (c.toNat - 48)) 0

/-- The JS `WhiteSpace` and `LineTerminator` characters removed by
`String.prototype.trim()`. -/
def isJsSpace (c : Char) : Bool :=
  c = ' ' ∨ c = '\t' ∨ c = '\n' ∨ c = '\r' ∨
  c = Char.ofNat 0x0B ∨ c = Char.ofNat 0x0C ∨ c = Char.ofNat 0xA0 ∨
  c = Char.ofNat 0x1680 ∨ (0x2000 ≤ c.toNat ∧ c.toNat ≤ 0x200A) ∨
  c = Char.ofNat 0x2028 ∨ c = Char.ofNat 0x2029 ∨ c = Char.ofNat 0x202F ∨
  c = Char.ofNat 0x205F ∨ c = Char.ofNat 0x3000 ∨ c = Char.ofNat 0xFEFF

/-- JS `.trim()`: drop leading and trailing whitespace. -/
def jsTrim (s : String) : String :=
  String.mk (((s.data.dropWhile isJsSpace).reverse.dropWhile isJsSpace).reverse)

/-- Stable insertion of `x` into a sorted list: `x` goes before the first
element it compares `le` to, so earlier elements stay before equal later
ones. -/
def insertSorted (le : α → α → Bool) (x : α) : List α → List α
  | [] => [x]
  | y :: ys => if le x y then x :: y :: ys else y :: insertSorted le x ys

/-- A stable sort by a boolean comparator, modelling JS
`Array.prototype.sort` (stable since ES2019). -/
def sortBy (le : α → α → Bool) (l : List α) : List α :=
  l.foldr (insertSorted le) []

/-- Drop `pat` from the front of `l`, or fail. -/
def dropLead : List Char → List Char → Option (List Char)
  | [], l => some l
  | _ :: _, [] => none
  | p :: ps, c :: cs => if c = p then dropLead ps cs else none

/-- Take the maximal digit run at the front. -/
def takeDigits (l : List Char) : List Char × List Char :=
  l.span Char.isDigit

/-- Strip, from a reversed path, the reversed literal `lit`, then a nonempty
digit run (returned as its value). -/
def stripNumPart (litRev : List Char) (r : List Char) : Option (Nat × List Char) :=
  let (ds, r1) := takeDigits r
  if ds.isEmpty then none
  else
    match dropLead litRev r1 with
    | some r2 => some (digitsVal ds.reverse, r2)
    | none => none

/-- `filePath.match(/volume_(\d+)\/section_(\d+)\/page_(\d+)\.json$/)`,
returning `Number` of the three groups. -/
def parsePath (path : String) : Option (Nat × Nat × Nat) :=
  let r := path.data.reverse
  match dropLead ".json".data.reverse r with
  | none => none
  | some r1 =>
    match stripNumPart "/page_".data.reverse r1 with
    | none => none
    | some (p, r2) =>
      match stripNumPart "/section_".data.reverse r2 with
      | none => none
      | some (s, r3) =>
        match stripNumPart "volume_".data.reverse r3 with
        | none => none
        | some (v, _) => some (v, s, p)

/-! ## Grouping and ordering (`parser.js` lines 28-56)

`groupedFiles` is a JS object volume → (object section → array of
`{path, page}`); modelled as nested association lists in insertion order.
Keys of a JS object are unique, so iterating `Object.keys(...).sort(...)`
and indexing is the same as sorting the association-list entries by key. -/

abbrev SecGroup := List (String × Nat)
abbrev VolGroup := List (Nat × SecGroup)
abbrev Grouped := List (Nat × VolGroup)

/-- `acc[volume][section].push({ path, page })` at the section level. -/
def insertSec (g : VolGroup) (s : Nat) (e : String × Nat) : VolGroup :=
  match g with
  | [] => [(s, [e])]
  | (k, es) :: rest =>
    if k = s then (k, es ++ [e]) :: rest else (k, es) :: insertSec rest s e

/-- `acc[volume][section].push({ path, page })` at the volume level,
creating the inner objects when absent. -/
def insertVol (g : Grouped) (v s : Nat) (e : String × Nat) : Grouped :=
  match g with
  | [] => [(v, insertSec [] s e)]
  | (k, vg) :: rest =>
    if k = v then (k, insertSec vg s e) :: rest else (k, vg) :: insertVol rest v s e

/-- The `reduce` building `groupedFiles`: non-matching paths are skipped. -/
def groupFiles (paths : List String) : Grouped :=
  paths.foldl
    (fun acc fp =>
      match parsePath fp with
      | some (v, s, p) => insertVol acc v s (fp, p)
      | none => acc) []

/-- The nested sorted iteration building `sortedPaths`: volumes ascending,
sections ascending, pages ascending (`sort((a, b) => a.page - b.page)`). -/
def sortedPaths (paths : List String) : List String :=
  let g := groupFiles paths
  (sortBy (fun a b => a.1 ≤ b.1) g).flatMap
    (fun ve =>
      (sortBy (fun a b => a.1 ≤ b.1) ve.2).flatMap
        (fun se =>
          (sortBy (fun a b => a.2 ≤ b.2) se.2).map (fun e => e.1)))

/-! ## Fragment structures (results of cheerio selections)

A hadith element is a `format.hadith` node of the fragment markup; the
cheerio calls of `parser.js` lines 81-108 are reflected as fields:
raw (untrimmed) text contents, with the `.trim()` calls kept in the
embedding itself. -/

/-- One `format.hadith` element. -/
structure HadithElem where
  /-- `$hadith.attr('revayatindex')`: `none` when the attribute is absent. -/
  revayatIndexAttr : Option String
  /-- The string interpolated for `$hadith.closest('p').attr('id')` (the JS
  text `undefined` when there is no enclosing `p` or no `id`). -/
  paragraphIdAttr : String
  /-- Text of the clone after removing `format.sanadHadith` and `lfootnote`
  sub-elements, before `.trim()`. -/
  bodyText : String
  /-- `sanadElement.text()` before `.trim()` (empty when absent). -/
  sanadText : String
  /-- `ghaelElement.text()` before `.trim()` (empty when absent). -/
  ghaelText : String
deriving Repr, DecidableEq

/-- One entry of `paragList`. -/
structure Parag where
  /-- `$('heading').text()` of this fragment, before `.trim()`. -/
  headingText : String
  /-- The `format.hadith` elements of the fragment, in document order. -/
  hadiths : List HadithElem
  /-- `$('p').text()` of this fragment (used by the fallback). -/
  pText : String
  /-- `parag.paragraphId` (used by the fallback; the JS text `undefined`
  when the JSON field is absent). -/
  paragraphId : String
deriving Repr, DecidableEq

/-- What `JSON.parse` plus `jsonData.data[0].paragList` finds in a page
file. The first three constructors throw in JS (invalid JSON; reading
index `0` of a missing `data`; reading `paragList` of a missing first
element); `noParagList` is a falsy `paragList` on an existing `data[0]`. -/
inductive PageContent where
  | invalidJson
  | missingData
  | emptyData
  | noParagList
  | parags (l : List Parag)
deriving Repr, DecidableEq

/-- `jsonData.data[0].paragList` with JS exception behaviour: `Except` error
is a thrown exception (which `main().catch` turns into `process.exit(1)`),
`ok none` is a falsy `paragList` (leads to `continue`). -/
def readParagList : PageContent → Except Unit (Option (List Parag))
  | .invalidJson => .error ()
  | .missingData => .error ()
  | .emptyData => .error ()
  | .noParagList => .ok none
  | .parags l => .ok (some l)

/-! ## Primary extraction (`parser.js` lines 60-123) -/

/-- `gen_${filePath}_${paragraphId}`. -/
def genId (filePath paragraphId : String) : String :=
  "gen_" ++ filePath ++ "_" ++ paragraphId

/-- `fallback_${parag.paragraphId}`. -/
def fallbackId (paragraphId : String) : String :=
  "fallback_" ++ paragraphId

/-- Identity of a hadith element: the explicit `revayatindex` attribute if
truthy, otherwise synthesized (`parser.js` lines 83-88). -/
def resolveId (filePath : String) (el : HadithElem) : String :=
  match el.revayatIndexAttr with
  | some s => if s = "" then genId filePath el.paragraphIdAttr else s
  | none => genId filePath el.paragraphIdAttr

/-- Processing of one `format.hadith` element (`parser.js` lines 81-121):
merge into an existing record or create a new one. -/
def processHadith (filePath : String) (vol sec page : Nat) (title : String)
    (m : HMap) (el : HadithElem) : HMap :=
  let revayatIndex := resolveId filePath el
  let hadithContent := jsTrim el.bodyText
  match lookupH m revayatIndex with
  | some existing =>
    let e1 :=
      if existing.pages.contains page then existing
      else { existing with pages := existing.pages ++ [page] }
    let e2 :=
      if hadithContent ≠ "" ∧ ¬ (e1.parts.contains hadithContent) then
        { e1 with parts := e1.parts ++ [hadithContent] }
      else e1
    updateH m revayatIndex e2
  | none =>
    m ++ [(revayatIndex,
      { vol := vol, sec := sec, pages := [page], id := revayatIndex,
        title := title, ghael := jsTrim el.ghaelText, sanad := jsTrim el.sanadText,
        parts := if hadithContent = "" then [] else [hadithContent] })]

/-- State threaded through the primary traversal: the accumulating map and
the mutable `currentTitle`. -/
structure ExtractState where
  hadithsById : HMap
  currentTitle : String
deriving Repr, DecidableEq

/-- Processing of one fragment (`parser.js` lines 74-122): update
`currentTitle` if the fragment has a truthy trimmed heading, then process
its hadith elements in order. -/
def processParag (filePath : String) (vol sec page : Nat)
    (st : ExtractState) (parag : Parag) : ExtractState :=
  let heading := jsTrim parag.headingText
  let title := if heading ≠ "" then heading else st.currentTitle
  { hadithsById := parag.hadiths.foldl (processHadith filePath vol sec page title) st.hadithsById,
    currentTitle := title }

/-- Processing of one page in the primary pass (`parser.js` lines 63-123):
read `paragList` (possibly throwing), skip on falsy `paragList` or a
non-matching path, else fold over the fragments. -/
def processPagePrimary (fileContent : String → PageContent)
    (st : ExtractState) (filePath : String) : Except Unit ExtractState := do
  match (← readParagList (fileContent filePath)) with
  | none => pure st
  | some parags =>
    match parsePath filePath with
    | none => pure st
    | some (v, s, p) => pure (parags.foldl (processParag filePath v s p) st)

/-- The primary loop from a given state over a given path list. -/
def primaryFold (fileContent : String → PageContent)
    (paths : List String) (st : ExtractState) : Except Unit ExtractState :=
  paths.foldlM (processPagePrimary fileContent) st

/-- The whole primary pass: `hadithsById = {}`, `currentTitle = 'Untitled'`. -/
def primaryPass (fileContent : String → PageContent)
    (paths : List String) : Except Unit ExtractState :=
  primaryFold fileContent paths { hadithsById := [], currentTitle := "Untitled" }

/-! ## The fallback pattern `/(.+) فرمود: «(.+)»/` (`parser.js` line 142)

JS regex semantics for this un-anchored pattern: `.` matches anything but a
line terminator, the match is the leftmost one, and each `(.+)` is greedy
(backtracking from the longest). Both groups and both literals are free of
line terminators, so a match lies inside a single line; within a line, any
match extends to a match starting at offset 0, so the leftmost match starts
at the beginning of the first line that matches at all; group 1 then runs to
the last separator occurrence that still leaves a valid group 2, and group 2
runs to the last `»` of the line. -/

/-- JS line terminators (`\n`, `\r`, U+2028, U+2029), which `.` excludes. -/
def isLineTerm (c : Char) : Bool :=
  c = '\n' ∨ c = '\r' ∨ c = Char.ofNat 0x2028 ∨ c = Char.ofNat 0x2029

/-- The literal between the two groups: space, `فرمود`, colon, space, `«`. -/
def sepChars : List Char := " فرمود: «".data

/-- Greedy group 2: everything up to the last `»`, which must not be the
first character (group 2 is `.+`, nonempty). -/
def takeGroup2 (rest : List Char) : Option (List Char) :=
  match rest.reverse.findIdx? (fun c => c = '»') with
  | none => none
  | some k =>
    let j := rest.length - 1 - k
    if 1 ≤ j then some (rest.take j) else none

/-- Try group-1 lengths `n, n-1, ..., 1` (greedy backtracking): at length
`i + 1` the separator must follow and a valid group 2 must close with `»`. -/
def goSplit (l : List Char) : Nat → Option (List Char × List Char)
  | 0 => none
  | i + 1 =>
    let rest0 := l.drop (i + 1)
    if sepChars.isPrefixOf rest0 then
      match takeGroup2 (rest0.drop sepChars.length) with
      | some g2 => some (l.take (i + 1), g2)
      | none => goSplit l i
    else goSplit l i

/-- Split on line terminators (a match of the pattern lies within a line). -/
def splitLines (l : List Char) : List (List Char) :=
  match l with
  | [] => [[]]
  | c :: cs =>
    let r := splitLines cs
    if isLineTerm c then [] :: r
    else
      match r with
      | [] => [[c]]
      | x :: xs => (c :: x) :: xs

/-- `text.match(/(.+) فرمود: «(.+)»/)`: the two captured groups, or `null`. -/
def matchHadith (text : String) : Option (String × String) :=
  let rec firstMatch : List (List Char) → Option (String × String)
    | [] => none
    | line :: rest =>
      match goSplit line line.length with
      | some (g1, g2) => some (String.mk g1, String.mk g2)
      | none => firstMatch rest
  firstMatch (splitLines text.data)

/-! ## Fallback extraction (`parser.js` lines 126-163) -/

/-- Processing of one fragment in the fallback pass (`parser.js` lines
139-161): on a pattern match, create a record under `fallback_<paragraphId>`
only if that key is still absent — an existing record is left untouched. -/
def processParagFallback (vol sec page : Nat) (title : String)
    (m : HMap) (parag : Parag) : HMap :=
  match matchHadith parag.pText with
  | none => m
  | some (ghael, content) =>
    let revayatIndex := fallbackId parag.paragraphId
    match lookupH m revayatIndex with
    | some _ => m
    | none =>
      m ++ [(revayatIndex,
        { vol := vol, sec := sec, pages := [page], id := revayatIndex,
          title := title, ghael := jsTrim ghael, sanad := "",
          parts := [jsTrim content] })]

/-- Processing of one page in the fallback pass (`parser.js` lines
128-162); `title` is the value `currentTitle` holds after the primary pass
and is never modified here. -/
def processPageFallback (fileContent : String → PageContent) (title : String)
    (m : HMap) (filePath : String) : Except Unit HMap := do
  match (← readParagList (fileContent filePath)) with
  | none => pure m
  | some parags =>
    match parsePath filePath with
    | none => pure m
    | some (v, s, p) => pure (parags.foldl (processParagFallback v s p title) m)

/-- The whole fallback pass over the same ordered path list. -/
def fallbackPass (fileContent : String → PageContent) (title : String)
    (paths : List String) (m : HMap) : Except Unit HMap :=
  paths.foldlM (processPageFallback fileContent title) m

/-! ## Final assembly (`parser.js` lines 165-173) -/

/-- A finalized output record: `parts` replaced by their newline-joined,
trimmed concatenation (`h.parts.join('\n').trim()`). -/
structure OutHadith where
  vol : Nat
  sec : Nat
  pages : List Nat
  id : String
  title : String
  ghael : String
  sanad : String
  content : String
deriving Repr, DecidableEq

/-- `{...h, content: h.parts.join('\n').trim(), parts: undefined}`. -/
def finalizeH (h : Hadith) : OutHadith :=
  { vol := h.vol, sec := h.sec, pages := h.pages, id := h.id,
    title := h.title, ghael := h.ghael, sanad := h.sanad,
    content := jsTrim (String.intercalate "\n" h.parts) }

/-- JS array-index-like property key: the canonical decimal form of an
integer below 2^32 - 1. `Object.values` lists such keys first, ascending. -/
def isIndexKey (s : String) : Bool :=
  ¬ s.isEmpty ∧ s.data.all Char.isDigit ∧ (s = "0" ∨ s.data.head? ≠ some '0')
    ∧ digitsVal s.data < 4294967295

/-- `Object.values(hadithsById)`: array-index-like keys first in ascending
numeric order, then the remaining keys in insertion order. -/
def valuesJS (m : HMap) : List Hadith :=
  ((sortBy (fun a b => digitsVal a.1.data ≤ digitsVal b.1.data)
      (m.filter (fun e => isIndexKey e.1)))
    ++ m.filter (fun e => ¬ isIndexKey e.1)).map (fun e => e.2)

/-- Final record list for a map: `Object.values(hadithsById).map(...)`. -/
def finalizeMap (m : HMap) : List OutHadith :=
  (valuesJS m).map finalizeH

/-- The whole `main()` of `parser.js` (modulo writing the output file):
ordering, primary pass, fallback pass iff the map is still empty, final
assembly. An `Except` error is an exception reaching `main().catch`, which
logs and calls `process.exit(1)`. -/
def mainRun (fileContent : String → PageContent)
    (filePaths : List String) : Except Unit (List OutHadith) := do
  let paths := sortedPaths filePaths
  let st ← primaryFold fileContent paths { hadithsById := [], currentTitle := "Untitled" }
  let m ←
    if st.hadithsById.isEmpty then
      fallbackPass fileContent st.currentTitle paths st.hadithsById
    else pure st.hadithsById
  pure (finalizeMap m)

/-! ## Translation driver (`translate.js`)

The external service call is an oracle giving the outcome of each attempt
(indexed by the value of `attempt` when it is made); the module-level
mutable variables `currentApiKeyIndex`, `consecutiveErrors`,
`fullCycleCompleted` are threaded explicitly; the in-process `titleCache`
object is an association list. Timing (the backoff `setTimeout`) has no
observable effect beyond the `consecutiveErrors` reset that follows it. -/

/-- Outcome of one `generateContent` attempt: a parsed translation, or a
thrown error whose `status` is 429/503 (`retryable`) or anything else. -/
inductive AttemptOutcome where
  | ok (translation : String)
  | err (retryable : Bool)
deriving Repr, DecidableEq

/-- Whether an attempt succeeded. -/
def AttemptOutcome.isOk : AttemptOutcome → Bool
  | .ok _ => true
  | .err _ => false

/-- The module-level mutable state of `translate.js` (lines 8-10). -/
structure KeyState where
  currentApiKeyIndex : Nat
  consecutiveErrors : Nat
  fullCycleCompleted : Bool
deriving Repr, DecidableEq

/-- The `while (attempt < maxAttempts)` loop of `translateText` (lines
37-89), with `fuel = maxAttempts - attempt` making the recursion structural.
Returns `none` when the budget is exhausted, the final key state, and the
final value of `attempt` (the number of attempts made). -/
def translateGo (numKeys : Nat) (outcome : Nat → AttemptOutcome) :
    Nat → Nat → KeyState → Option String × KeyState × Nat
  | attempt, 0, ks => (none, ks, attempt)
  | attempt, fuel + 1, ks =>
    match outcome attempt with
    | .ok tr => (some tr, { ks with consecutiveErrors := 0 }, attempt + 1)
    | .err retryable =>
      let ce := if retryable then ks.consecutiveErrors + 1 else 0
      let idx := (ks.currentApiKeyIndex + 1) % numKeys
      let fc := ks.fullCycleCompleted || idx = 0
      let ce2 := if fc ∧ 2 ≤ ce then 0 else ce
      translateGo numKeys outcome (attempt + 1) fuel
        { currentApiKeyIndex := idx, consecutiveErrors := ce2, fullCycleCompleted := fc }

/-- The in-process `titleCache` object. -/
abbrev TitleCache := List (String × String)

/-- `titleCache[text]` truthiness: present with a non-empty string. -/
def cacheHit (cache : TitleCache) (text : String) : Bool :=
  match (cache.find? (fun e => e.1 = text)).map (fun e => e.2) with
  | some v => v ≠ ""
  | none => false

/-- `titleCache[text]` (the JS text of a falsy miss never reaches the caller
because `cacheHit` guards the read). -/
def cacheGet (cache : TitleCache) (text : String) : String :=
  ((cache.find? (fun e => e.1 = text)).map (fun e => e.2)).getD ""

/-- `translateText(text, isTitle)` (lines 19-93): cache short-circuit for
titles, then the retry loop with `maxAttempts = apiKeys.length * 3`; on
success a title translation is cached; on an exhausted budget the original
text is returned. Result: the returned string, the new key state, the
number of attempts made, and the new cache. -/
def translateText (numKeys : Nat) (outcome : Nat → AttemptOutcome)
    (cache : TitleCache) (ks : KeyState) (text : String) (isTitle : Bool) :
    String × KeyState × Nat × TitleCache :=
  if isTitle ∧ cacheHit cache text then (cacheGet cache text, ks, 0, cache)
  else
    match translateGo numKeys outcome 0 (numKeys * 3) ks with
    | (some tr, ks2, n) =>
      (tr, ks2, n, if isTitle then cache ++ [(text, tr)] else cache)
    | (none, ks2, n) => (text, ks2, n, cache)

/-- A translated record: `{...hadith, title_fa, content_fa}`. -/
structure TranslatedHadith extends OutHadith where
  title_fa : String
  content_fa : String
deriving Repr, DecidableEq

/-- `{...hadith, title_fa: translatedTitle.trim(), content_fa:
translatedContent.trim()}`, with the two service results abstracted as a
function of the text and the `isTitle` flag. -/
def augmentH (tr : String → Bool → String) (h : OutHadith) : TranslatedHadith :=
  { toOutHadith := h, title_fa := jsTrim (tr h.title true),
    content_fa := jsTrim (tr h.content false) }

/-- Result of the resume loop: the in-memory `translatedHadiths` array and
the successive contents written to `hadiths_translated.json`, in order. -/
structure TransRun where
  translatedHadiths : List TranslatedHadith
  writes : List (List TranslatedHadith)
deriving Repr, DecidableEq

/-- The resume loop of `translate.js` `main()` (lines 151-181): `initial`
is the loaded partial file; `translatedIds` is computed once from it; a
record already translated, or with a blank body, is skipped; otherwise it
is translated, appended, and the whole array is written out immediately. -/
def translateMainLoop (tr : String → Bool → String)
    (initial : List TranslatedHadith) (hadiths : List OutHadith) : TransRun :=
  let translatedIds := initial.map (fun h => h.id)
  hadiths.foldl
    (fun acc h =>
      if translatedIds.contains h.id then acc
      else if jsTrim h.content = "" then acc
      else
        let newHadith := augmentH tr h
        { translatedHadiths := acc.translatedHadiths ++ [newHadith],
          writes := acc.writes ++ [acc.translatedHadiths ++ [newHadith]] })
    { translatedHadiths := initial, writes := [] }

/-! ## Auxiliary definitions used by the statements and proofs -/

/-- Non-decreasing lexicographic order on (volume, section, page). -/
def tripleLe (a b : Nat × Nat × Nat) : Prop :=
  a.1 < b.1 ∨ (a.1 = b.1 ∧ (a.2.1 < b.2.1 ∨ (a.2.1 = b.2.1 ∧ a.2.2 ≤ b.2.2)))

/-- Equality of the record fields fixed at first occurrence (everything
except `pages` and `parts`). -/
def sameFrame (a b : Hadith) : Prop :=
  a.vol = b.vol ∧ a.sec = b.sec ∧ a.id = b.id ∧ a.title = b.title ∧
  a.ghael = b.ghael ∧ a.sanad = b.sanad

/-- The successive file contents when a list is persisted after each append,
starting from `init`: one snapshot per appended element. -/
def prefixSnapshots {α : Type} (init : List α) : List α → List (List α)
  | [] => []
  | x :: xs => (init ++ [x]) :: prefixSnapshots (init ++ [x]) xs

/-- The (triple, path) entries stored in one section bucket. -/
def entriesOfSec (v s : Nat) (es : SecGroup) : List ((Nat × Nat × Nat) × String) :=
  es.map (fun e => ((v, s, e.2), e.1))

/-- The (triple, path) entries stored in one volume bucket. -/
def entriesOfVol (v : Nat) (vg : VolGroup) : List ((Nat × Nat × Nat) × String) :=
  vg.flatMap (fun se => entriesOfSec v se.1 se.2)

/-- The (triple, path) entries stored in the whole grouping. -/
def entriesOfGrouped (g : Grouped) : List ((Nat × Nat × Nat) × String) :=
  g.flatMap (fun ve => entriesOfVol ve.1 ve.2)

/-- The grouping invariant at the section level: every stored entry parses
back to the bucket's keys and its stored page. -/
def GoodSec (v s : Nat) (es : SecGroup) : Prop :=
  ∀ e ∈ es, parsePath e.1 = some (v, s, e.2)

/-- The grouping invariant at the volume level. -/
def GoodVol (v : Nat) (vg : VolGroup) : Prop :=
  (∀ se ∈ vg, GoodSec v se.1 se.2) ∧ (vg.map Prod.fst).Nodup

/-- The grouping invariant at the top level. -/
def GoodGrouped (g : Grouped) : Prop :=
  (∀ ve ∈ g, GoodVol ve.1 ve.2) ∧ (g.map Prod.fst).Nodup

/-- The (triple, path) pairs of the paths that match the pattern, in input
order. -/
def parsedEntries (paths : List String) : List ((Nat × Nat × Nat) × String) :=
  paths.filterMap (fun p => (parsePath p).map (fun t => (t, p)))

/-- The sorted nested iteration of `sortedPaths`, keeping the bucket keys
next to each emitted path. -/
def sortedEntriesOf (g : Grouped) : List ((Nat × Nat × Nat) × String) :=
  (sortBy (fun a b => a.1 ≤ b.1) g).flatMap
    (fun ve =>
      (sortBy (fun a b => a.1 ≤ b.1) ve.2).flatMap
        (fun se =>
          (sortBy (fun a b => a.2 ≤ b.2) se.2).map
            (fun e => ((ve.1, se.1, e.2), e.1))))

/-! Concrete page contents used to instantiate several theorems. -/

/-- A book where the primary pattern matches (an explicit `revayatindex`)
and, in a second fragment, the fallback pattern would also match. -/
def fcBoth : String → PageContent := fun _ =>
  .parags [⟨"", [⟨some "h1", "u", "A", "", ""⟩], "", "u"⟩,
           ⟨"", [], "x فرمود: «y»", "q"⟩]

/-- A book whose first page is invalid JSON and whose second page would
yield a record. -/
def fcBadFirst : String → PageContent := fun p =>
  if p = "volume_1/section_1/page_1.json" then .invalidJson
  else .parags [⟨"", [⟨some "h2", "u", "B", "", ""⟩], "", "u"⟩]

/-- A book with a heading-bearing fragment that only the fallback pattern
matches. -/
def fcFallbackOnly : String → PageContent := fun _ =>
  .parags [⟨"HEAD", [], "x فرمود: «y»", "pid1"⟩]

/-! ## Lemmas about the identity map -/

theorem lookupH_nil (k : String) : lookupH [] k = none := rfl

theorem lookupH_cons (e : String × Hadith) (m : HMap) (k : String) :
    lookupH (e :: m) k = if e.1 = k then some e.2 else lookupH m k := by
  by_cases h : e.1 = k <;> simp [lookupH, List.find?_cons, h]

theorem lookupH_append_of_some {m : HMap} {k : String} {r : Hadith} (l : HMap)
    (h : lookupH m k = some r) : lookupH (m ++ l) k = some r := by
  induction m with
  | nil => simp [lookupH] at h
  | cons e m ih =>
    rw [List.cons_append, lookupH_cons] at *
    split at h <;> simp_all [lookupH_cons]

theorem lookupH_append_of_none {m : HMap} {k : String} (l : HMap)
    (h : lookupH m k = none) : lookupH (m ++ l) k = lookupH l k := by
  induction m with
  | nil => simp
  | cons e m ih =>
    rw [lookupH_cons] at h
    split at h
    · simp at h
    · rw [List.cons_append, lookupH_cons]
      simp_all

theorem lookupH_updateH_self {m : HMap} {k : String} (h : Hadith)
    (hs : (lookupH m k).isSome) : lookupH (updateH m k h) k = some h := by
  induction m with
  | nil => simp [lookupH] at hs
  | cons e m ih =>
    rw [lookupH_cons] at hs
    by_cases he : e.1 = k
    · simp [updateH, lookupH_cons, he]
    · simp only [he, if_false] at hs
      simpa [updateH, lookupH_cons, he] using ih hs

theorem updateH_cons (e : String × Hadith) (m : HMap) (k : String) (h : Hadith) :
    updateH (e :: m) k h = (if e.1 = k then (k, h) else e) :: updateH m k h := rfl

theorem lookupH_updateH_ne {k k' : String} (m : HMap) (h : Hadith)
    (hne : k' ≠ k) : lookupH (updateH m k h) k' = lookupH m k' := by
  induction m with
  | nil => rfl
  | cons e m ih =>
    rw [updateH_cons]
    by_cases he : e.1 = k
    · rw [if_pos he, lookupH_cons, lookupH_cons, he]
      have hk : ¬ (k = k') := fun hh => hne hh.symm
      simp [hk, ih]
    · rw [if_neg he, lookupH_cons, lookupH_cons]
      split <;> simp [ih]

theorem keys_updateH (m : HMap) (k : String) (h : Hadith) :
    (updateH m k h).map Prod.fst = m.map Prod.fst := by
  induction m with
  | nil => rfl
  | cons e m ih =>
    by_cases he : e.1 = k <;> simp [updateH, he, ih] at * <;> simp_all

/-- The merge branch of `processHadith`: an existing record for the
occurrence's identity is updated in place. -/
theorem processHadith_merge {fp : String} {m : HMap} {el : HadithElem} {ex : Hadith}
    (v s p : Nat) (t : String)
    (hl : lookupH m (resolveId fp el) = some ex) :
    processHadith fp v s p t m el =
      updateH m (resolveId fp el)
        { ex with
          pages := if ex.pages.contains p then ex.pages else ex.pages ++ [p],
          parts := if jsTrim el.bodyText ≠ "" ∧ ¬ ex.parts.contains (jsTrim el.bodyText)
                   then ex.parts ++ [jsTrim el.bodyText] else ex.parts } := by
  by_cases hpg : p ∈ ex.pages <;>
    by_cases h1 : jsTrim el.bodyText = "" <;>
      by_cases h2 : jsTrim el.bodyText ∈ ex.parts <;>
        simp [processHadith, hl, hpg, h1, h2]

/-- The creation branch of `processHadith`: a fresh identity appends a new
record at the end of the map. -/
theorem processHadith_create {fp : String} {m : HMap} {el : HadithElem}
    (v s p : Nat) (t : String)
    (hl : lookupH m (resolveId fp el) = none) :
    processHadith fp v s p t m el =
      m ++ [(resolveId fp el,
        { vol := v, sec := s, pages := [p], id := resolveId fp el, title := t,
          ghael := jsTrim el.ghaelText, sanad := jsTrim el.sanadText,
          parts := if jsTrim el.bodyText = "" then [] else [jsTrim el.bodyText] })] := by
  simp only [processHadith, hl]

/-- C1, general part, packaged for reuse: merging touches only the record
of the occurrence's identity, appending page and body text at the end when
(and only when) the dedup conditions allow it. -/
theorem merge_semantics (fp : String) (v s p : Nat) (t : String)
    (m : HMap) (el : HadithElem) (ex : Hadith)
    (hl : lookupH m (resolveId fp el) = some ex) :
    (processHadith fp v s p t m el).map Prod.fst = m.map Prod.fst ∧
    lookupH (processHadith fp v s p t m el) (resolveId fp el) =
      some { ex with
             pages := if ex.pages.contains p then ex.pages else ex.pages ++ [p],
             parts := if jsTrim el.bodyText ≠ "" ∧ ¬ ex.parts.contains (jsTrim el.bodyText)
                      then ex.parts ++ [jsTrim el.bodyText] else ex.parts } ∧
    (∀ k, k ≠ resolveId fp el →
      lookupH (processHadith fp v s p t m el) k = lookupH m k) := by
  rw [processHadith_merge v s p t hl]
  refine ⟨keys_updateH .., ?_, fun k hk => lookupH_updateH_ne m _ hk⟩
  exact lookupH_updateH_self _ (by simp [hl])

/-- The synthesized identity is injective in the paragraph identifier once
the file path is fixed. -/
theorem genId_inj {fp a b : String} (h : genId fp a = genId fp b) : a = b := by
  have hd := congrArg String.data h
  simp only [genId, String.data_append, List.append_assoc] at hd
  exact String.ext
    (List.append_cancel_left (List.append_cancel_left (List.append_cancel_left hd)))

/-- Claim C1: in the primary extractor, an occurrence whose identity already
has a record merges into it rather than replacing it: the key set is
unchanged, the page is appended only when new, the trimmed body text is
appended only when non-empty and not yet a variant (exact string equality),
always at the end (first-seen order); concretely, occurrences of one
identity on pages 3 and 7 with bodies `A` then `B`, followed by a third
occurrence on page 7 with body `A` again, leave one record with
`pages = [3, 7]` and `parts = ["A", "B"]`. -/
theorem claim_C1 :
    (∀ (fp : String) (v s p : Nat) (t : String) (m : HMap) (el : HadithElem) (ex : Hadith),
      lookupH m (resolveId fp el) = some ex →
      ((processHadith fp v s p t m el).map Prod.fst = m.map Prod.fst ∧
       lookupH (processHadith fp v s p t m el) (resolveId fp el) =
         some { ex with
                pages := if ex.pages.contains p then ex.pages else ex.pages ++ [p],
                parts := if jsTrim el.bodyText ≠ "" ∧ ¬ ex.parts.contains (jsTrim el.bodyText)
                         then ex.parts ++ [jsTrim el.bodyText] else ex.parts })) ∧
    processHadith "f" 1 1 7 "T"
        (processHadith "f" 1 1 7 "T"
          (processHadith "f" 1 1 3 "T" [] ⟨some "h1", "u", "A", "", ""⟩)
          ⟨some "h1", "u", "B", "", ""⟩)
        ⟨some "h1", "u", "A", "", ""⟩ =
      [("h1", ⟨1, 1, [3, 7], "h1", "T", "", "", ["A", "B"]⟩)] := by
  refine ⟨fun fp v s p t m el ex hl => ?_, by decide⟩
  have h := merge_semantics fp v s p t m el ex hl
  exact ⟨h.1, h.2.1⟩

/-- Witness for C1 at a concrete merge: an existing record for `h1` on page
3 with variant `A`, merged with an occurrence on page 7 with body `B`. -/
theorem claim_C1_witness :
    lookupH [("h1", ⟨1, 1, [3], "h1", "T", "G", "S", ["A"]⟩)]
        (resolveId "f" ⟨some "h1", "u", "B", "", ""⟩) =
      some ⟨1, 1, [3], "h1", "T", "G", "S", ["A"]⟩ ∧
    lookupH
        (processHadith "f" 1 1 7 "T" [("h1", ⟨1, 1, [3], "h1", "T", "G", "S", ["A"]⟩)]
          ⟨some "h1", "u", "B", "", ""⟩)
        (resolveId "f" ⟨some "h1", "u", "B", "", ""⟩) =
      some ⟨1, 1, [3, 7], "h1", "T", "G", "S", ["A", "B"]⟩ := by
  constructor
  · decide
  · have h :=
      (claim_C1.1 "f" 1 1 7 "T" [("h1", ⟨1, 1, [3], "h1", "T", "G", "S", ["A"]⟩)]
        ⟨some "h1", "u", "B", "", ""⟩ ⟨1, 1, [3], "h1", "T", "G", "S", ["A"]⟩ (by decide)).2
    rw [h]
    decide

/-- Claim C5: in the fallback extractor a duplicate identity is a strict
no-op — when a record already exists for the synthesized fallback identity,
the whole map is returned unchanged (no page, no variant appended);
concretely, two matching paragraphs with the same `paragraphId` leave
exactly the record of the first. -/
theorem claim_C5 :
    (∀ (v s p : Nat) (t : String) (m : HMap) (parag : Parag) (r : Hadith),
      lookupH m (fallbackId parag.paragraphId) = some r →
      processParagFallback v s p t m parag = m) ∧
    [(⟨"", [], "الف فرمود: «اول»", "X"⟩ : Parag), ⟨"", [], "ب فرمود: «دوم»", "X"⟩].foldl
        (processParagFallback 1 1 5 "T") [] =
      [("fallback_X", ⟨1, 1, [5], "fallback_X", "T", "الف", "", ["اول"]⟩)] := by
  refine ⟨fun v s p t m parag r hl => ?_, by decide⟩
  cases hm : matchHadith parag.pText with
  | none => simp [processParagFallback, hm]
  | some g =>
    obtain ⟨gh, gc⟩ := g
    simp [processParagFallback, hm, hl]

/-- Witness for C5: a second matching paragraph with the identity of an
existing record changes nothing. -/
theorem claim_C5_witness :
    lookupH [("fallback_X", ⟨1, 1, [5], "fallback_X", "T", "الف", "", ["اول"]⟩)]
        (fallbackId (Parag.paragraphId ⟨"", [], "ب فرمود: «دوم»", "X"⟩)) =
      some ⟨1, 1, [5], "fallback_X", "T", "الف", "", ["اول"]⟩ ∧
    processParagFallback 2 3 9 "U"
        [("fallback_X", ⟨1, 1, [5], "fallback_X", "T", "الف", "", ["اول"]⟩)]
        ⟨"", [], "ب فرمود: «دوم»", "X"⟩ =
      [("fallback_X", ⟨1, 1, [5], "fallback_X", "T", "الف", "", ["اول"]⟩)] :=
  ⟨by decide,
   claim_C5.1 2 3 9 "U" _ _ ⟨1, 1, [5], "fallback_X", "T", "الف", "", ["اول"]⟩ (by decide)⟩

/-- Claim C7 is false as stated: identities synthesized from distinct
paragraph identifiers in distinct files can coincide, because the identity
is a plain underscore-join of path and identifier. Both file paths below
match the volume/section/page pattern, the paragraph identifiers differ,
the synthesized identities are equal, and processing the two occurrences
yields a single record. -/
theorem claim_C7_counterexample :
    parsePath "volume_1/section_1/page_1.json" = some (1, 1, 1) ∧
    parsePath "volume_1/section_1/page_1.json_Q/volume_2/section_2/page_2.json" =
      some (2, 2, 2) ∧
    ("Q/volume_2/section_2/page_2.json_R" : String) ≠ "R" ∧
    genId "volume_1/section_1/page_1.json" "Q/volume_2/section_2/page_2.json_R" =
      genId "volume_1/section_1/page_1.json_Q/volume_2/section_2/page_2.json" "R" ∧
    (processHadith "volume_1/section_1/page_1.json_Q/volume_2/section_2/page_2.json" 2 2 2 "T"
        (processHadith "volume_1/section_1/page_1.json" 1 1 1 "T" []
          ⟨none, "Q/volume_2/section_2/page_2.json_R", "X", "", ""⟩)
        ⟨none, "R", "Y", "", ""⟩).length = 1 :=
  ⟨by decide, by decide, by decide, by decide, by decide⟩

/-- Claim C7 amended: within one source file, two quotation elements
lacking an explicit index attribute and lying in paragraphs with different
identifiers get distinct synthesized identities, and the two occurrences
produce two separate records. -/
theorem claim_C7 (fp : String) (v1 s1 p1 v2 s2 p2 : Nat) (t1 t2 : String)
    (el1 el2 : HadithElem)
    (h1 : el1.revayatIndexAttr = none) (h2 : el2.revayatIndexAttr = none)
    (hne : el1.paragraphIdAttr ≠ el2.paragraphIdAttr) :
    resolveId fp el1 ≠ resolveId fp el2 ∧
    (processHadith fp v2 s2 p2 t2 (processHadith fp v1 s1 p1 t1 [] el1) el2).map Prod.fst =
      [resolveId fp el1, resolveId fp el2] := by
  have hid : resolveId fp el1 ≠ resolveId fp el2 := by
    simp only [resolveId, h1, h2]
    exact fun hh => hne (genId_inj hh)
  refine ⟨hid, ?_⟩
  rw [processHadith_create v1 s1 p1 t1 (lookupH_nil _),
      processHadith_create v2 s2 p2 t2 (by simp [lookupH_cons, lookupH_nil, hid])]
  simp

/-- Witness for the amended C7 at two concrete attribute-less elements of
one file. -/
theorem claim_C7_witness :
    resolveId "f" ⟨none, "a", "", "", ""⟩ ≠ resolveId "f" ⟨none, "b", "", "", ""⟩ ∧
    (processHadith "f" 1 1 2 "T"
        (processHadith "f" 1 1 1 "T" [] ⟨none, "a", "", "", ""⟩)
        ⟨none, "b", "", "", ""⟩).map Prod.fst =
      [resolveId "f" ⟨none, "a", "", "", ""⟩, resolveId "f" ⟨none, "b", "", "", ""⟩] :=
  claim_C7 "f" 1 1 1 1 1 2 "T" "T" ⟨none, "a", "", "", ""⟩ ⟨none, "b", "", "", ""⟩
    rfl rfl (by decide)

/-! ## Frame preservation (claim C6) -/

theorem sameFrame_refl (a : Hadith) : sameFrame a a :=
  ⟨rfl, rfl, rfl, rfl, rfl, rfl⟩

theorem sameFrame_trans {a b c : Hadith} (h1 : sameFrame a b) (h2 : sameFrame b c) :
    sameFrame a c := by
  obtain ⟨x1, x2, x3, x4, x5, x6⟩ := h1
  obtain ⟨y1, y2, y3, y4, y5, y6⟩ := h2
  exact ⟨x1.trans y1, x2.trans y2, x3.trans y3, x4.trans y4, x5.trans y5, x6.trans y6⟩

/-- One hadith element never touches the frame fields of any record already
in the map. -/
theorem processHadith_preserves (fp : String) (v s p : Nat) (t : String)
    (m : HMap) (el : HadithElem) (idk : String) (r : Hadith)
    (h : lookupH m idk = some r) :
    ∃ r', lookupH (processHadith fp v s p t m el) idk = some r' ∧ sameFrame r' r := by
  by_cases hk : idk = resolveId fp el
  · subst hk
    rw [processHadith_merge v s p t h]
    exact ⟨_, lookupH_updateH_self _ (by simp [h]), rfl, rfl, rfl, rfl, rfl, rfl⟩
  · cases hl : lookupH m (resolveId fp el) with
    | some ex =>
      rw [processHadith_merge v s p t hl]
      exact ⟨r, by rw [lookupH_updateH_ne _ _ hk]; exact h, sameFrame_refl r⟩
    | none =>
      rw [processHadith_create v s p t hl]
      exact ⟨r, lookupH_append_of_some _ h, sameFrame_refl r⟩

theorem foldl_processHadith_preserves (fp : String) (v s p : Nat) (t : String)
    (els : List HadithElem) (m : HMap) (idk : String) (r : Hadith)
    (h : lookupH m idk = some r) :
    ∃ r', lookupH (els.foldl (processHadith fp v s p t) m) idk = some r' ∧ sameFrame r' r := by
  induction els generalizing m r with
  | nil => exact ⟨r, h, sameFrame_refl r⟩
  | cons el els ih =>
    obtain ⟨r1, hr1, hf1⟩ := processHadith_preserves fp v s p t m el idk r h
    obtain ⟨r2, hr2, hf2⟩ := ih _ _ hr1
    exact ⟨r2, hr2, sameFrame_trans hf2 hf1⟩

theorem processParag_preserves (fp : String) (v s p : Nat)
    (st : ExtractState) (parag : Parag) (idk : String) (r : Hadith)
    (h : lookupH st.hadithsById idk = some r) :
    ∃ r', lookupH (processParag fp v s p st parag).hadithsById idk = some r' ∧ sameFrame r' r :=
  foldl_processHadith_preserves fp v s p _ parag.hadiths st.hadithsById idk r h

theorem foldl_processParag_preserves (fp : String) (v s p : Nat)
    (parags : List Parag) (st : ExtractState) (idk : String) (r : Hadith)
    (h : lookupH st.hadithsById idk = some r) :
    ∃ r', lookupH (parags.foldl (processParag fp v s p) st).hadithsById idk = some r' ∧
      sameFrame r' r := by
  induction parags generalizing st r with
  | nil => exact ⟨r, h, sameFrame_refl r⟩
  | cons pg parags ih =>
    obtain ⟨r1, hr1, hf1⟩ := processParag_preserves fp v s p st pg idk r h
    obtain ⟨r2, hr2, hf2⟩ := ih _ _ hr1
    exact ⟨r2, hr2, sameFrame_trans hf2 hf1⟩

theorem processPagePrimary_preserves (fc : String → PageContent)
    (st st' : ExtractState) (path : String) (idk : String) (r : Hadith)
    (hok : processPagePrimary fc st path = .ok st')
    (h : lookupH st.hadithsById idk = some r) :
    ∃ r', lookupH st'.hadithsById idk = some r' ∧ sameFrame r' r := by
  cases hfc : fc path with
  | parags l =>
    simp only [processPagePrimary, hfc, readParagList, bind, Except.bind, pure, Except.pure] at hok
    cases hp : parsePath path with
    | none =>
      rw [hp] at hok
      cases hok
      exact ⟨r, h, sameFrame_refl r⟩
    | some tri =>
      obtain ⟨v, s, p⟩ := tri
      rw [hp] at hok
      cases hok
      exact foldl_processParag_preserves path v s p l st idk r h
  | noParagList =>
    simp only [processPagePrimary, hfc, readParagList, bind, Except.bind, pure, Except.pure] at hok
    cases hok
    exact ⟨r, h, sameFrame_refl r⟩
  | invalidJson => simp [processPagePrimary, hfc, readParagList, bind, Except.bind] at hok
  | missingData => simp [processPagePrimary, hfc, readParagList, bind, Except.bind] at hok
  | emptyData => simp [processPagePrimary, hfc, readParagList, bind, Except.bind] at hok

/-- Claim C6: once a record exists, processing any further pages in the
primary pass can only change its `pages` and `parts`; `vol`, `sec`, `id`,
`title`, `ghael` and `sanad` keep the values set at first occurrence. -/
theorem claim_C6 (fc : String → PageContent) (paths : List String)
    (st st' : ExtractState) (idk : String) (r : Hadith)
    (hrun : primaryFold fc paths st = .ok st')
    (h : lookupH st.hadithsById idk = some r) :
    ∃ r', lookupH st'.hadithsById idk = some r' ∧
      r'.vol = r.vol ∧ r'.sec = r.sec ∧ r'.id = r.id ∧ r'.title = r.title ∧
      r'.ghael = r.ghael ∧ r'.sanad = r.sanad := by
  induction paths generalizing st r with
  | nil =>
    simp only [primaryFold, List.foldlM_nil, pure, Except.pure] at hrun
    cases hrun
    exact ⟨r, h, sameFrame_refl r⟩
  | cons path paths ih =>
    rw [primaryFold, List.foldlM_cons] at hrun
    cases hstep : processPagePrimary fc st path with
    | error e => rw [hstep] at hrun; cases hrun
    | ok st1 =>
      rw [hstep] at hrun
      obtain ⟨r1, hr1, hf1⟩ := processPagePrimary_preserves fc st st1 path idk r hstep h
      obtain ⟨r2, hr2, hf2⟩ := ih st1 r1 hrun hr1
      exact ⟨r2, hr2, sameFrame_trans ⟨hf2.1, hf2.2.1, hf2.2.2.1, hf2.2.2.2.1,
        hf2.2.2.2.2.1, hf2.2.2.2.2.2⟩ hf1⟩

/-- Witness for C6: an existing record for `h1` (page 3, title `T`,
attribution `G`, chain `S`) is merged with a page that carries a new
heading and body `B`; the frame fields survive untouched. -/
theorem claim_C6_witness :
    ∃ r', lookupH
        (ExtractState.hadithsById
          ⟨[("h1", ⟨1, 1, [3, 2], "h1", "T", "G", "S", ["A", "B"]⟩)], "NEWTITLE"⟩) "h1" =
        some r' ∧
      r'.vol = 1 ∧ r'.sec = 1 ∧ r'.id = "h1" ∧ r'.title = "T" ∧
      r'.ghael = "G" ∧ r'.sanad = "S" := by
  have h := claim_C6
    (fun _ => .parags [⟨"NEWTITLE", [⟨some "h1", "u", "B", "", ""⟩], "", "u"⟩])
    ["volume_1/section_1/page_2.json"]
    ⟨[("h1", ⟨1, 1, [3], "h1", "T", "G", "S", ["A"]⟩)], "T"⟩
    ⟨[("h1", ⟨1, 1, [3, 2], "h1", "T", "G", "S", ["A", "B"]⟩)], "NEWTITLE"⟩
    "h1" ⟨1, 1, [3], "h1", "T", "G", "S", ["A"]⟩ rfl rfl
  exact h

/-! ## Page-level error handling (claim C3) -/

/-- A page whose `data[0]` exists but has a falsy `paragList` is skipped:
the state passes through unchanged. -/
theorem processPagePrimary_skip (fc : String → PageContent) (st : ExtractState)
    (path : String) (h : fc path = .noParagList) :
    processPagePrimary fc st path = .ok st := by
  simp [processPagePrimary, h, readParagList, bind, Except.bind, pure, Except.pure]

/-- A page with invalid JSON, a missing `data` array, or an empty `data`
array throws, so the page step is an error. -/
theorem processPagePrimary_throw (fc : String → PageContent) (st : ExtractState)
    (path : String)
    (h : fc path = .invalidJson ∨ fc path = .missingData ∨ fc path = .emptyData) :
    processPagePrimary fc st path = .error () := by
  rcases h with h | h | h <;>
    simp [processPagePrimary, h, readParagList, bind, Except.bind]

/-- Claim C3 is false as stated: a page that fails to parse as JSON aborts
the entire run (the exception reaches `main().catch`, which exits non-zero)
instead of being skipped. Here the first page is invalid JSON; run on both
pages the pipeline errors, while the second page alone yields a record. -/
theorem claim_C3_counterexample :
    mainRun fcBadFirst
        ["volume_1/section_1/page_1.json", "volume_1/section_1/page_2.json"] =
      .error () ∧
    mainRun fcBadFirst ["volume_1/section_1/page_2.json"] =
      .ok [⟨1, 1, [2], "h2", "Untitled", "", "", "B"⟩] :=
  ⟨rfl, rfl⟩

/-- Claim C3 amended: only a page whose `data[0]` exists but lacks a truthy
`paragList` is skipped non-fatally (the traversal continues as if the page
were absent, and no record is produced from it); a page that fails JSON
parsing, lacks the `data` array, or has an empty `data` array makes the
whole primary pass fail. -/
theorem claim_C3 (fc : String → PageContent) (st : ExtractState)
    (path : String) (pre post : List String) :
    (fc path = .noParagList →
      primaryFold fc (pre ++ path :: post) st = primaryFold fc (pre ++ post) st) ∧
    ((fc path = .invalidJson ∨ fc path = .missingData ∨ fc path = .emptyData) →
      primaryFold fc (pre ++ path :: post) st = .error ()) := by
  constructor
  · intro h
    rw [primaryFold, primaryFold, List.foldlM_append, List.foldlM_append]
    cases hpre : List.foldlM (processPagePrimary fc) st pre with
    | error e => rfl
    | ok st1 =>
      simp only [bind, Except.bind, List.foldlM_cons, processPagePrimary_skip fc st1 path h]
  · intro h
    rw [primaryFold, List.foldlM_append]
    cases hpre : List.foldlM (processPagePrimary fc) st pre with
    | error e => rfl
    | ok st1 =>
      simp only [bind, Except.bind, List.foldlM_cons,
        processPagePrimary_throw fc st1 path h]

/-- Witness for the amended C3: a `paragList`-less page between two good
pages is skipped; an invalid-JSON page in the same position is fatal. -/
theorem claim_C3_witness :
    primaryFold (fun _ => PageContent.noParagList) (["a"] ++ "p" :: ["b"])
        ⟨[], "Untitled"⟩ =
      primaryFold (fun _ => PageContent.noParagList) (["a"] ++ ["b"]) ⟨[], "Untitled"⟩ ∧
    primaryFold (fun _ => PageContent.invalidJson) (["a"] ++ "p" :: ["b"])
        ⟨[], "Untitled"⟩ =
      .error () :=
  ⟨(claim_C3 (fun _ => PageContent.noParagList) ⟨[], "Untitled"⟩ "p" ["a"] ["b"]).1 rfl,
   (claim_C3 (fun _ => PageContent.invalidJson) ⟨[], "Untitled"⟩ "p" ["a"] ["b"]).2
     (Or.inl rfl)⟩

/-! ## Fallback activation (claim C4) -/

/-- Claim C4: the fallback pass runs if and only if the primary pass left
the identity map empty — with an empty map the pipeline result is the
finalized fallback map; with a non-empty map the result is the finalized
primary map and the fallback pass does not occur in it at all. -/
theorem claim_C4 (fc : String → PageContent) (filePaths : List String)
    (st : ExtractState)
    (hst : primaryFold fc (sortedPaths filePaths) ⟨[], "Untitled"⟩ = .ok st) :
    (st.hadithsById = [] →
      mainRun fc filePaths =
        (fallbackPass fc st.currentTitle (sortedPaths filePaths)
            st.hadithsById).map finalizeMap) ∧
    (st.hadithsById ≠ [] → mainRun fc filePaths = .ok (finalizeMap st.hadithsById)) := by
  constructor
  · intro hEmpty
    simp only [mainRun, hst, bind, Except.bind, hEmpty, List.isEmpty_nil, if_pos]
    cases hfb : fallbackPass fc st.currentTitle (sortedPaths filePaths) [] with
    | error e => simp [Except.map]
    | ok m => simp [Except.map, pure, Except.pure]
  · intro hNe
    have hne : st.hadithsById.isEmpty = false := by
      cases hm : st.hadithsById with
      | nil => exact absurd hm hNe
      | cons a l => rfl
    simp only [mainRun, hst, bind, Except.bind, hne, Bool.false_eq_true, if_false,
      pure, Except.pure]

/-- Witness for C4 at a book where the primary strategy finds one record
and the fallback pattern would also match a fragment: the output has only
the primary record. -/
theorem claim_C4_witness :
    matchHadith "x فرمود: «y»" = some ("x", "y") ∧
    mainRun fcBoth ["volume_1/section_1/page_1.json"] =
      .ok [⟨1, 1, [1], "h1", "Untitled", "", "", "A"⟩] := by
  constructor
  · rfl
  · have h := (claim_C4 fcBoth ["volume_1/section_1/page_1.json"]
      ⟨[("h1", ⟨1, 1, [1], "h1", "Untitled", "", "", ["A"]⟩)], "Untitled"⟩ rfl).2
      (by simp)
    rw [h]
    rfl

/-! ## Fallback titles (claim C10) -/

/-- The fallback step never modifies an existing record. -/
theorem fallback_step_keeps (v s p : Nat) (t : String) (m : HMap) (parag : Parag)
    {idk : String} {r : Hadith} (h : lookupH m idk = some r) :
    lookupH (processParagFallback v s p t m parag) idk = some r := by
  cases hm : matchHadith parag.pText with
  | none => simpa [processParagFallback, hm] using h
  | some g =>
    obtain ⟨gh, gc⟩ := g
    cases hl : lookupH m (fallbackId parag.paragraphId) with
    | some r0 => simpa [processParagFallback, hm, hl] using h
    | none =>
      simp only [processParagFallback, hm, hl]
      exact lookupH_append_of_some _ h

/-- Any record the fallback step creates carries the title it was given. -/
theorem fallback_step_new (v s p : Nat) (t : String) (m : HMap) (parag : Parag)
    {idk : String} {r : Hadith} (h0 : lookupH m idk = none)
    (h1 : lookupH (processParagFallback v s p t m parag) idk = some r) :
    r.title = t := by
  cases hm : matchHadith parag.pText with
  | none =>
    rw [processParagFallback, hm] at h1
    rw [h0] at h1
    cases h1
  | some g =>
    obtain ⟨gh, gc⟩ := g
    cases hl : lookupH m (fallbackId parag.paragraphId) with
    | some r0 =>
      simp only [processParagFallback, hm, hl] at h1
      rw [h0] at h1
      cases h1
    | none =>
      simp only [processParagFallback, hm, hl] at h1
      rw [lookupH_append_of_none _ h0, lookupH_cons] at h1
      by_cases he : fallbackId parag.paragraphId = idk
      · rw [if_pos he] at h1
        cases h1
        rfl
      · rw [if_neg he] at h1
        cases h1

theorem foldl_fallback_keeps (v s p : Nat) (t : String) (parags : List Parag)
    (m : HMap) {idk : String} {r : Hadith} (h : lookupH m idk = some r) :
    lookupH (parags.foldl (processParagFallback v s p t) m) idk = some r := by
  induction parags generalizing m with
  | nil => exact h
  | cons pg parags ih => exact ih _ (fallback_step_keeps v s p t m pg h)

theorem foldl_fallback_new (v s p : Nat) (t : String) (parags : List Parag)
    (m : HMap) {idk : String} {r : Hadith} (h0 : lookupH m idk = none)
    (h1 : lookupH (parags.foldl (processParagFallback v s p t) m) idk = some r) :
    r.title = t := by
  induction parags generalizing m with
  | nil => rw [List.foldl_nil, h0] at h1; cases h1
  | cons pg parags ih =>
    rw [List.foldl_cons] at h1
    cases hmid : lookupH (processParagFallback v s p t m pg) idk with
    | none => exact ih _ hmid h1
    | some r1 =>
      have hkeep := foldl_fallback_keeps v s p t parags _ hmid
      rw [h1] at hkeep
      cases hkeep
      exact fallback_step_new v s p t m pg h0 hmid

theorem processPageFallback_keeps (fc : String → PageContent) (t : String)
    (m m1 : HMap) (path : String) {idk : String} {r : Hadith}
    (hok : processPageFallback fc t m path = .ok m1)
    (h : lookupH m idk = some r) : lookupH m1 idk = some r := by
  cases hfc : fc path with
  | parags l =>
    simp only [processPageFallback, hfc, readParagList, bind, Except.bind, pure,
      Except.pure] at hok
    cases hp : parsePath path with
    | none => rw [hp] at hok; cases hok; exact h
    | some tri =>
      obtain ⟨v, s, p⟩ := tri
      rw [hp] at hok
      cases hok
      exact foldl_fallback_keeps v s p t l m h
  | noParagList =>
    simp only [processPageFallback, hfc, readParagList, bind, Except.bind, pure,
      Except.pure] at hok
    cases hok
    exact h
  | invalidJson => simp [processPageFallback, hfc, readParagList, bind, Except.bind] at hok
  | missingData => simp [processPageFallback, hfc, readParagList, bind, Except.bind] at hok
  | emptyData => simp [processPageFallback, hfc, readParagList, bind, Except.bind] at hok

theorem processPageFallback_new (fc : String → PageContent) (t : String)
    (m m1 : HMap) (path : String) {idk : String} {r : Hadith}
    (hok : processPageFallback fc t m path = .ok m1)
    (h0 : lookupH m idk = none) (h1 : lookupH m1 idk = some r) : r.title = t := by
  cases hfc : fc path with
  | parags l =>
    simp only [processPageFallback, hfc, readParagList, bind, Except.bind, pure,
      Except.pure] at hok
    cases hp : parsePath path with
    | none => rw [hp] at hok; cases hok; rw [h0] at h1; cases h1
    | some tri =>
      obtain ⟨v, s, p⟩ := tri
      rw [hp] at hok
      cases hok
      exact foldl_fallback_new v s p t l m h0 h1
  | noParagList =>
    simp only [processPageFallback, hfc, readParagList, bind, Except.bind, pure,
      Except.pure] at hok
    cases hok
    rw [h0] at h1
    cases h1
  | invalidJson => simp [processPageFallback, hfc, readParagList, bind, Except.bind] at hok
  | missingData => simp [processPageFallback, hfc, readParagList, bind, Except.bind] at hok
  | emptyData => simp [processPageFallback, hfc, readParagList, bind, Except.bind] at hok

theorem fallbackPass_keeps (fc : String → PageContent) (t : String)
    (paths : List String) (m m' : HMap) {idk : String} {r : Hadith}
    (hok : fallbackPass fc t paths m = .ok m')
    (h : lookupH m idk = some r) : lookupH m' idk = some r := by
  induction paths generalizing m with
  | nil =>
    simp only [fallbackPass, List.foldlM_nil, pure, Except.pure] at hok
    cases hok
    exact h
  | cons path paths ih =>
    rw [fallbackPass, List.foldlM_cons] at hok
    cases hstep : processPageFallback fc t m path with
    | error e => rw [hstep] at hok; cases hok
    | ok m1 =>
      rw [hstep] at hok
      exact ih m1 hok (processPageFallback_keeps fc t m m1 path hstep h)

/-- Title preservation within one fragment when the trimmed heading is
blank. -/
theorem processParag_title (fp : String) (v s p : Nat) (st : ExtractState)
    (pg : Parag) (h : jsTrim pg.headingText = "") :
    (processParag fp v s p st pg).currentTitle = st.currentTitle := by
  simp [processParag, h]

theorem foldl_processParag_title (fp : String) (v s p : Nat)
    (parags : List Parag) (st : ExtractState)
    (h : ∀ pg ∈ parags, jsTrim pg.headingText = "") :
    (parags.foldl (processParag fp v s p) st).currentTitle = st.currentTitle := by
  induction parags generalizing st with
  | nil => rfl
  | cons pg parags ih =>
    rw [List.foldl_cons, ih _ (fun q hq => h q (List.mem_cons_of_mem pg hq)),
      processParag_title fp v s p st pg (h pg (List.mem_cons_self pg parags))]

theorem processPagePrimary_title (fc : String → PageContent)
    (st st' : ExtractState) (path : String)
    (hok : processPagePrimary fc st path = .ok st')
    (h : ∀ l, fc path = .parags l → ∀ pg ∈ l, jsTrim pg.headingText = "") :
    st'.currentTitle = st.currentTitle := by
  cases hfc : fc path with
  | parags l =>
    simp only [processPagePrimary, hfc, readParagList, bind, Except.bind, pure,
      Except.pure] at hok
    cases hp : parsePath path with
    | none => rw [hp] at hok; cases hok; rfl
    | some tri =>
      obtain ⟨v, s, p⟩ := tri
      rw [hp] at hok
      cases hok
      exact foldl_processParag_title path v s p l st (h l hfc)
  | noParagList =>
    simp only [processPagePrimary, hfc, readParagList, bind, Except.bind, pure,
      Except.pure] at hok
    cases hok
    rfl
  | invalidJson => simp [processPagePrimary, hfc, readParagList, bind, Except.bind] at hok
  | missingData => simp [processPagePrimary, hfc, readParagList, bind, Except.bind] at hok
  | emptyData => simp [processPagePrimary, hfc, readParagList, bind, Except.bind] at hok

/-- Claim C10: every record the fallback pass creates carries the one title
value it was handed; the fallback never reads headings (replacing a
fragment's heading text changes nothing); the pipeline hands the fallback
pass exactly the `currentTitle` left over by the primary pass; and if no
truthy heading was ever seen that value is still the seed `Untitled`. -/
theorem claim_C10 :
    (∀ (fc : String → PageContent) (t : String) (paths : List String)
        (m0 m' : HMap) (idk : String) (r : Hadith),
      fallbackPass fc t paths m0 = .ok m' → lookupH m0 idk = none →
      lookupH m' idk = some r → r.title = t) ∧
    (∀ (v s p : Nat) (t : String) (m : HMap) (pg : Parag) (x : String),
      processParagFallback v s p t m
          ⟨x, pg.hadiths, pg.pText, pg.paragraphId⟩ =
        processParagFallback v s p t m pg) ∧
    (∀ (fc : String → PageContent) (paths : List String) (st : ExtractState),
      primaryFold fc (sortedPaths paths) ⟨[], "Untitled"⟩ = .ok st →
      st.hadithsById = [] →
      mainRun fc paths =
        (fallbackPass fc st.currentTitle (sortedPaths paths)
            st.hadithsById).map finalizeMap) ∧
    (∀ (fc : String → PageContent) (paths : List String) (st st' : ExtractState),
      primaryFold fc paths st = .ok st' →
      (∀ path l, fc path = .parags l → ∀ pg ∈ l, jsTrim pg.headingText = "") →
      st'.currentTitle = st.currentTitle) := by
  refine ⟨?_, ?_, ?_, ?_⟩
  · intro fc t paths m0 m' idk r hok h0 h1
    induction paths generalizing m0 with
    | nil =>
      simp only [fallbackPass, List.foldlM_nil, pure, Except.pure] at hok
      cases hok
      rw [h0] at h1
      cases h1
    | cons path paths ih =>
      rw [fallbackPass, List.foldlM_cons] at hok
      cases hstep : processPageFallback fc t m0 path with
      | error e => rw [hstep] at hok; cases hok
      | ok m1 =>
        rw [hstep] at hok
        cases hmid : lookupH m1 idk with
        | none => exact ih m1 hok hmid
        | some r1 =>
          have hkeep := fallbackPass_keeps fc t paths m1 m' hok hmid
          rw [h1] at hkeep
          cases hkeep
          exact processPageFallback_new fc t m0 m1 path hstep h0 hmid
  · intro v s p t m pg x
    rfl
  · intro fc paths st hst hEmpty
    simp only [mainRun, hst, bind, Except.bind, hEmpty, List.isEmpty_nil, if_pos]
    cases hfb : fallbackPass fc st.currentTitle (sortedPaths paths) [] with
    | error e => simp [Except.map]
    | ok m => simp [Except.map, pure, Except.pure]
  · intro fc paths st st' hok h
    induction paths generalizing st with
    | nil =>
      simp only [primaryFold, List.foldlM_nil, pure, Except.pure] at hok
      cases hok
      rfl
    | cons path paths ih =>
      rw [primaryFold, List.foldlM_cons] at hok
      cases hstep : processPagePrimary fc st path with
      | error e => rw [hstep] at hok; cases hok
      | ok st1 =>
        rw [hstep] at hok
        rw [ih st1 hok, processPagePrimary_title fc st st1 path hstep (h path)]

/-- Witness for C10: the fallback, handed title `T`, creates the record of
`fallback_pid1` with title `T` even though the re-traversed fragment
carries the heading `HEAD`. -/
theorem claim_C10_witness :
    Hadith.title ⟨1, 1, [1], "fallback_pid1", "T", "x", "", ["y"]⟩ = "T" :=
  claim_C10.1 fcFallbackOnly "T" ["volume_1/section_1/page_1.json"] []
    [("fallback_pid1", ⟨1, 1, [1], "fallback_pid1", "T", "x", "", ["y"]⟩)]
    "fallback_pid1" ⟨1, 1, [1], "fallback_pid1", "T", "x", "", ["y"]⟩
    rfl rfl rfl

/-! ## Translation resume (claim C8) -/

/-- Claim C8: on re-invocation with a partial output file, the loop
translates exactly the records whose identity is not yet in the file and
whose body is non-blank, in input order, and writes the output file once
after each such record — the k-th write holding the initial records plus
the first k new ones. -/
theorem claim_C8 (tr : String → Bool → String)
    (initial : List TranslatedHadith) (hadiths : List OutHadith) :
    (translateMainLoop tr initial hadiths).translatedHadiths =
      initial ++
        (hadiths.filter (fun h =>
          !(initial.map (fun g => g.id)).contains h.id && !(jsTrim h.content == ""))).map
          (augmentH tr) ∧
    (translateMainLoop tr initial hadiths).writes =
      prefixSnapshots initial
        ((hadiths.filter (fun h =>
          !(initial.map (fun g => g.id)).contains h.id && !(jsTrim h.content == ""))).map
          (augmentH tr)) := by
  have main : ∀ (hs : List OutHadith) (accT : List TranslatedHadith)
      (accW : List (List TranslatedHadith)),
      hs.foldl
        (fun acc h =>
          if (initial.map (fun g => g.id)).contains h.id then acc
          else if jsTrim h.content = "" then acc
          else
            { translatedHadiths := acc.translatedHadiths ++ [augmentH tr h],
              writes := acc.writes ++ [acc.translatedHadiths ++ [augmentH tr h]] })
        (⟨accT, accW⟩ : TransRun) =
      (⟨accT ++
        (hs.filter (fun h =>
          !(initial.map (fun g => g.id)).contains h.id && !(jsTrim h.content == ""))).map
          (augmentH tr),
       accW ++ prefixSnapshots accT
        ((hs.filter (fun h =>
          !(initial.map (fun g => g.id)).contains h.id && !(jsTrim h.content == ""))).map
          (augmentH tr))⟩ : TransRun) := by
    intro hs
    induction hs with
    | nil => intro accT accW; simp [prefixSnapshots]
    | cons h hs ih =>
      intro accT accW
      by_cases h1 : (initial.map (fun g => g.id)).contains h.id
      · have hc : ¬ ((!(initial.map (fun g => g.id)).contains h.id
            && !(jsTrim h.content == "")) = true) := by
          rw [h1]
          exact Bool.false_ne_true
        simp only [List.foldl_cons]
        rw [if_pos h1, ih,
          @List.filter_cons_of_neg _
            (fun h => !(initial.map (fun g => g.id)).contains h.id && !(jsTrim h.content == ""))
            h hs hc]
      · by_cases h2 : jsTrim h.content = ""
        · have hc : ¬ ((!(initial.map (fun g => g.id)).contains h.id
              && !(jsTrim h.content == "")) = true) := by
            rw [h2]
            simp
          simp only [List.foldl_cons]
          rw [if_neg h1, if_pos h2, ih,
            @List.filter_cons_of_neg _
              (fun h => !(initial.map (fun g => g.id)).contains h.id && !(jsTrim h.content == ""))
              h hs hc]
        · have hc : (!(initial.map (fun g => g.id)).contains h.id
              && !(jsTrim h.content == "")) = true := by
            rw [Bool.not_eq_true] at h1
            rw [h1, beq_eq_false_iff_ne.mpr h2]
            decide
          simp only [List.foldl_cons]
          rw [if_neg h1, if_neg h2, ih,
            @List.filter_cons_of_pos _
              (fun h => !(initial.map (fun g => g.id)).contains h.id && !(jsTrim h.content == ""))
              h hs hc]
          simp [prefixSnapshots]
  have hmain := main hadiths initial []
  simp only [translateMainLoop]
  rw [hmain]
  exact ⟨rfl, List.nil_append _⟩

/-! ## Translation retry budget (claim C9) -/

/-- The retry loop makes at most `fuel` further attempts. -/
theorem translateGo_attempts_le (numKeys : Nat) (outcome : Nat → AttemptOutcome) :
    ∀ (fuel attempt : Nat) (ks : KeyState),
      (translateGo numKeys outcome attempt fuel ks).2.2 ≤ attempt + fuel := by
  intro fuel
  induction fuel with
  | zero => intro attempt ks; simp [translateGo]
  | succ fuel ih =>
    intro attempt ks
    rw [translateGo]
    cases outcome attempt with
    | ok tr => simp
    | err retryable =>
      have := ih (attempt + 1)
        ⟨(ks.currentApiKeyIndex + 1) % numKeys,
         if (ks.fullCycleCompleted || (ks.currentApiKeyIndex + 1) % numKeys = 0) ∧
             2 ≤ (if retryable then ks.consecutiveErrors + 1 else 0) then 0
         else if retryable then ks.consecutiveErrors + 1 else 0,
         ks.fullCycleCompleted || (ks.currentApiKeyIndex + 1) % numKeys = 0⟩
      simp only []
      calc (translateGo numKeys outcome (attempt + 1) fuel _).2.2
          ≤ attempt + 1 + fuel := this
        _ = attempt + (fuel + 1) := by omega

/-- If every attempt in the budget fails, the loop exhausts its fuel. -/
theorem translateGo_all_err (numKeys : Nat) (outcome : Nat → AttemptOutcome) :
    ∀ (fuel attempt : Nat) (ks : KeyState),
      (∀ i, attempt ≤ i → i < attempt + fuel → (outcome i).isOk = false) →
      (translateGo numKeys outcome attempt fuel ks).1 = none := by
  intro fuel
  induction fuel with
  | zero => intro attempt ks _; rfl
  | succ fuel ih =>
    intro attempt ks hfail
    rw [translateGo]
    cases hout : outcome attempt with
    | ok tr =>
      have := hfail attempt (Nat.le_refl _) (by omega)
      rw [hout] at this
      cases this
    | err retryable =>
      exact ih (attempt + 1) _ (fun i h1 h2 => hfail i (by omega) (by omega))

/-- Claim C9: for every input text the retry loop makes at most
`numKeys * 3` attempts, and when every attempt in that budget fails (and
the title cache does not short-circuit the loop) the function returns the
original text instead of raising — a translation failure is never fatal. -/
theorem claim_C9 (numKeys : Nat) (outcome : Nat → AttemptOutcome) (text : String)
    (cache : TitleCache) (ks : KeyState) (isTitle : Bool)
    (hfail : ∀ i, i < numKeys * 3 → (outcome i).isOk = false)
    (hnc : isTitle = false ∨ cacheHit cache text = false) :
    (translateText numKeys outcome cache ks text isTitle).2.2.1 ≤ numKeys * 3 ∧
    (translateText numKeys outcome cache ks text isTitle).1 = text := by
  have hcond : ¬ (isTitle = true ∧ cacheHit cache text = true) := by
    rcases hnc with h | h <;> simp [h]
  have hnone : (translateGo numKeys outcome 0 (numKeys * 3) ks).1 = none :=
    translateGo_all_err numKeys outcome (numKeys * 3) 0 ks
      (fun i h1 h2 => hfail i (by omega))
  have hle : (translateGo numKeys outcome 0 (numKeys * 3) ks).2.2 ≤ numKeys * 3 := by
    have := translateGo_attempts_le numKeys outcome (numKeys * 3) 0 ks
    omega
  rw [translateText, if_neg hcond]
  cases hgo : translateGo numKeys outcome 0 (numKeys * 3) ks with
  | mk res rest =>
    obtain ⟨ks2, n⟩ := rest
    rw [hgo] at hnone hle
    cases hnone
    exact ⟨hle, rfl⟩

/-- Witness for C9 with a single key, an always-failing service, and an
empty cache: at most three attempts, and the original text comes back. -/
theorem claim_C9_witness :
    (translateText 1 (fun _ => .err true) [] ⟨0, 0, false⟩ "t" false).2.2.1 ≤ 1 * 3 ∧
    (translateText 1 (fun _ => .err true) [] ⟨0, 0, false⟩ "t" false).1 = "t" :=
  claim_C9 1 (fun _ => .err true) "t" [] ⟨0, 0, false⟩ false
    (fun _ _ => rfl) (Or.inl rfl)

/-! ## Correctness of the stable sort -/

theorem perm_insertSorted (le : α → α → Bool) (x : α) (l : List α) :
    insertSorted le x l ~ x :: l := by
  induction l with
  | nil => exact List.Perm.refl _
  | cons y ys ih =>
    rw [insertSorted]
    split
    · exact List.Perm.refl _
    · exact (ih.cons y).trans (List.Perm.swap x y ys)

theorem sortBy_perm (le : α → α → Bool) (l : List α) : sortBy le l ~ l := by
  induction l with
  | nil => exact List.Perm.refl _
  | cons x xs ih =>
    exact (perm_insertSorted le x (sortBy le xs)).trans (ih.cons x)

theorem sorted_insertSorted (le : α → α → Bool)
    (htrans : ∀ a b c, le a b = true → le b c = true → le a c = true)
    (htotal : ∀ a b, le a b || le b a) (x : α) (l : List α)
    (hl : l.Pairwise (fun a b => le a b = true)) :
    (insertSorted le x l).Pairwise (fun a b => le a b = true) := by
  induction l with
  | nil => simp [insertSorted]
  | cons y ys ih =>
    rcases List.pairwise_cons.mp hl with ⟨hy, hys⟩
    rw [insertSorted]
    by_cases hxy : le x y
    · rw [if_pos hxy]
      refine List.pairwise_cons.mpr ⟨?_, hl⟩
      intro b hb
      rcases List.mem_cons.mp hb with hb | hb
      · rw [hb]; exact hxy
      · exact htrans x y b hxy (hy b hb)
    · rw [if_neg hxy]
      have hyx : le y x = true := by
        have := htotal x y
        rw [Bool.eq_false_iff.mpr hxy] at this
        simpa using this
      refine List.pairwise_cons.mpr ⟨?_, ih hys⟩
      intro b hb
      rcases List.mem_cons.mp ((perm_insertSorted le x ys).mem_iff.mp hb) with hb | hb
      · rw [hb]; exact hyx
      · exact hy b hb

theorem sorted_sortBy (le : α → α → Bool)
    (htrans : ∀ a b c, le a b = true → le b c = true → le a c = true)
    (htotal : ∀ a b, le a b || le b a) (l : List α) :
    (sortBy le l).Pairwise (fun a b => le a b = true) := by
  induction l with
  | nil => simp [sortBy]
  | cons x xs ih => exact sorted_insertSorted le htrans htotal x _ ih

/-! ## The grouping invariant (claim C2) -/

theorem goodSec_insertSec {v s : Nat} {e : String × Nat} {vg : VolGroup}
    (hg : ∀ se ∈ vg, GoodSec v se.1 se.2)
    (he : parsePath e.1 = some (v, s, e.2)) :
    ∀ se ∈ insertSec vg s e, GoodSec v se.1 se.2 := by
  induction vg with
  | nil =>
    intro se hse
    rw [insertSec] at hse
    rcases List.mem_singleton.mp hse with rfl
    intro x hx
    rcases List.mem_singleton.mp hx with rfl
    exact he
  | cons kv rest ih =>
    obtain ⟨k, es⟩ := kv
    intro se hse
    rw [insertSec] at hse
    by_cases hk : k = s
    · rw [if_pos hk] at hse
      rcases List.mem_cons.mp hse with rfl | hse
      · intro x hx
        rcases List.mem_append.mp hx with hx | hx
        · exact hg (k, es) (List.mem_cons_self ..) x hx
        · rcases List.mem_singleton.mp hx with rfl
          rw [hk]
          exact he
      · exact hg se (List.mem_cons_of_mem _ hse)
    · rw [if_neg hk] at hse
      rcases List.mem_cons.mp hse with rfl | hse
      · exact hg (k, es) (List.mem_cons_self ..)
      · exact ih (fun se' hse' => hg se' (List.mem_cons_of_mem _ hse')) se hse

theorem keys_insertSec (vg : VolGroup) (s : Nat) (e : String × Nat) :
    (insertSec vg s e).map Prod.fst =
      if s ∈ vg.map Prod.fst then vg.map Prod.fst else vg.map Prod.fst ++ [s] := by
  induction vg with
  | nil => simp [insertSec]
  | cons kv rest ih =>
    obtain ⟨k, es⟩ := kv
    rw [insertSec]
    by_cases hk : k = s
    · rw [if_pos hk]
      simp [hk]
    · rw [if_neg hk]
      simp only [List.map_cons]
      rw [ih]
      by_cases hs : s ∈ rest.map Prod.fst
      · rw [if_pos hs, if_pos (List.mem_cons_of_mem _ hs)]
      · rw [if_neg hs, if_neg ?hns]
        · simp
        case hns =>
          intro hmem
          rcases List.mem_cons.mp hmem with h | h
          · exact hk h.symm
          · exact hs h

theorem nodupKeys_insertSec {vg : VolGroup} (s : Nat) (e : String × Nat)
    (h : (vg.map Prod.fst).Nodup) : ((insertSec vg s e).map Prod.fst).Nodup := by
  rw [keys_insertSec]
  by_cases hs : s ∈ vg.map Prod.fst
  · rw [if_pos hs]; exact h
  · rw [if_neg hs]
    refine List.Nodup.append h (List.nodup_singleton s) ?_
    intro a ha hb
    rcases List.mem_singleton.mp hb with rfl
    exact hs ha

theorem goodVol_insertSec {v s : Nat} {e : String × Nat} {vg : VolGroup}
    (hg : GoodVol v vg) (he : parsePath e.1 = some (v, s, e.2)) :
    GoodVol v (insertSec vg s e) :=
  ⟨goodSec_insertSec hg.1 he, nodupKeys_insertSec s e hg.2⟩

theorem entries_insertSec (v s : Nat) (e : String × Nat) (vg : VolGroup) :
    entriesOfVol v (insertSec vg s e) ~ ((v, s, e.2), e.1) :: entriesOfVol v vg := by
  induction vg with
  | nil =>
    exact List.Perm.of_eq
      (by simp [insertSec, entriesOfVol, entriesOfSec])
  | cons kv rest ih =>
    obtain ⟨k, es⟩ := kv
    rw [insertSec]
    by_cases hk : k = s
    · rw [if_pos hk]
      subst hk
      simp only [entriesOfVol, List.flatMap_cons, entriesOfSec, List.map_append,
        List.map_cons, List.map_nil, List.append_assoc, List.singleton_append]
      exact List.perm_middle
    · rw [if_neg hk]
      simp only [entriesOfVol, List.flatMap_cons]
      exact (ih.append_left _).trans List.perm_middle

theorem keys_insertVol (g : Grouped) (v s : Nat) (e : String × Nat) :
    (insertVol g v s e).map Prod.fst =
      if v ∈ g.map Prod.fst then g.map Prod.fst else g.map Prod.fst ++ [v] := by
  induction g with
  | nil => simp [insertVol]
  | cons kv rest ih =>
    obtain ⟨k, vg⟩ := kv
    rw [insertVol]
    by_cases hk : k = v
    · rw [if_pos hk]
      simp [hk]
    · rw [if_neg hk]
      simp only [List.map_cons]
      rw [ih]
      by_cases hs : v ∈ rest.map Prod.fst
      · rw [if_pos hs, if_pos (List.mem_cons_of_mem _ hs)]
      · rw [if_neg hs, if_neg ?hnv]
        · simp
        case hnv =>
          intro hmem
          rcases List.mem_cons.mp hmem with h | h
          · exact hk h.symm
          · exact hs h

theorem nodupKeys_insertVol {g : Grouped} (v s : Nat) (e : String × Nat)
    (h : (g.map Prod.fst).Nodup) : ((insertVol g v s e).map Prod.fst).Nodup := by
  rw [keys_insertVol]
  by_cases hs : v ∈ g.map Prod.fst
  · rw [if_pos hs]; exact h
  · rw [if_neg hs]
    refine List.Nodup.append h (List.nodup_singleton v) ?_
    intro a ha hb
    rcases List.mem_singleton.mp hb with rfl
    exact hs ha

theorem goodAll_insertVol {v s : Nat} {e : String × Nat} :
    ∀ (g : Grouped), (∀ ve ∈ g, GoodVol ve.1 ve.2) →
      parsePath e.1 = some (v, s, e.2) →
      ∀ ve ∈ insertVol g v s e, GoodVol ve.1 ve.2 := by
  intro g
  induction g with
  | nil =>
    intro _ he ve hve
    rw [insertVol] at hve
    rcases List.mem_singleton.mp hve with rfl
    refine ⟨goodSec_insertSec ?_ he, nodupKeys_insertSec s e (by simp)⟩
    intro se hse
    cases hse
  | cons kv rest ih =>
    obtain ⟨k, vg⟩ := kv
    intro hg he ve hve
    rw [insertVol] at hve
    by_cases hk : k = v
    · rw [if_pos hk] at hve
      rcases List.mem_cons.mp hve with rfl | hve
      · subst hk
        exact goodVol_insertSec (hg (k, vg) (List.mem_cons_self ..)) he
      · exact hg ve (List.mem_cons_of_mem _ hve)
    · rw [if_neg hk] at hve
      rcases List.mem_cons.mp hve with rfl | hve
      · exact hg (k, vg) (List.mem_cons_self ..)
      · exact ih (fun ve' hve' => hg ve' (List.mem_cons_of_mem _ hve')) he ve hve

theorem good_insertVol {g : Grouped} {v s : Nat} {e : String × Nat}
    (hg : GoodGrouped g) (he : parsePath e.1 = some (v, s, e.2)) :
    GoodGrouped (insertVol g v s e) :=
  ⟨goodAll_insertVol g hg.1 he, nodupKeys_insertVol v s e hg.2⟩

theorem entries_insertVol (g : Grouped) (v s : Nat) (e : String × Nat) :
    entriesOfGrouped (insertVol g v s e) ~ ((v, s, e.2), e.1) :: entriesOfGrouped g := by
  induction g with
  | nil =>
    exact List.Perm.of_eq
      (by simp [insertVol, insertSec, entriesOfGrouped, entriesOfVol, entriesOfSec])
  | cons kv rest ih =>
    obtain ⟨k, vg⟩ := kv
    rw [insertVol]
    by_cases hk : k = v
    · rw [if_pos hk]
      subst hk
      simp only [entriesOfGrouped, List.flatMap_cons]
      exact (entries_insertSec k s e vg).append_right _
    · rw [if_neg hk]
      simp only [entriesOfGrouped, List.flatMap_cons]
      exact (ih.append_left _).trans List.perm_middle

theorem groupFold_invariant (paths : List String) :
    ∀ (acc : Grouped), GoodGrouped acc →
      GoodGrouped (paths.foldl
        (fun acc fp =>
          match parsePath fp with
          | some (v, s, p) => insertVol acc v s (fp, p)
          | none => acc) acc) ∧
      entriesOfGrouped (paths.foldl
        (fun acc fp =>
          match parsePath fp with
          | some (v, s, p) => insertVol acc v s (fp, p)
          | none => acc) acc) ~ entriesOfGrouped acc ++ parsedEntries paths := by
  induction paths with
  | nil =>
    intro acc hacc
    exact ⟨hacc, by simp [parsedEntries]⟩
  | cons p ps ih =>
    intro acc hacc
    rw [List.foldl_cons]
    cases hp : parsePath p with
    | none =>
      simp only [hp]
      have h := ih acc hacc
      refine ⟨h.1, ?_⟩
      have hpe : parsedEntries (p :: ps) = parsedEntries ps := by
        simp [parsedEntries, List.filterMap_cons, hp]
      rw [hpe]
      exact h.2
    | some tri =>
      obtain ⟨v, s, pg⟩ := tri
      simp only [hp]
      have hgood : GoodGrouped (insertVol acc v s (p, pg)) := good_insertVol hacc hp
      have h := ih _ hgood
      refine ⟨h.1, ?_⟩
      have hpe : parsedEntries (p :: ps) = ((v, s, pg), p) :: parsedEntries ps := by
        simp [parsedEntries, List.filterMap_cons, hp]
      rw [hpe]
      refine h.2.trans ?_
      refine (((entries_insertVol acc v s (p, pg)).append_right _).trans ?_)
      exact List.perm_middle.symm

theorem groupFiles_good (paths : List String) :
    GoodGrouped (groupFiles paths) ∧
      entriesOfGrouped (groupFiles paths) ~ parsedEntries paths := by
  have h := groupFold_invariant paths []
    ⟨fun ve hve => absurd hve (List.not_mem_nil _), List.nodup_nil⟩
  rw [groupFiles]
  exact ⟨h.1, by simpa [entriesOfGrouped] using h.2⟩

theorem leFst_trans {β : Type} (a b c : Nat × β)
    (h1 : decide (a.1 ≤ b.1) = true) (h2 : decide (b.1 ≤ c.1) = true) :
    decide (a.1 ≤ c.1) = true := by
  simp only [decide_eq_true_eq] at *
  omega

theorem leFst_total {β : Type} (a b : Nat × β) :
    (decide (a.1 ≤ b.1) || decide (b.1 ≤ a.1)) = true := by
  simp only [Bool.or_eq_true, decide_eq_true_eq]
  omega

theorem leSnd_trans {β : Type} (a b c : β × Nat)
    (h1 : decide (a.2 ≤ b.2) = true) (h2 : decide (b.2 ≤ c.2) = true) :
    decide (a.2 ≤ c.2) = true := by
  simp only [decide_eq_true_eq] at *
  omega

theorem leSnd_total {β : Type} (a b : β × Nat) :
    (decide (a.2 ≤ b.2) || decide (b.2 ≤ a.2)) = true := by
  simp only [Bool.or_eq_true, decide_eq_true_eq]
  omega

theorem sortedPaths_eq (paths : List String) :
    sortedPaths paths = (sortedEntriesOf (groupFiles paths)).map Prod.snd := by
  simp only [sortedPaths, sortedEntriesOf, List.map_flatMap, List.map_map]
  rfl

theorem sortedEntriesOf_perm (g : Grouped) :
    sortedEntriesOf g ~ entriesOfGrouped g := by
  rw [sortedEntriesOf, entriesOfGrouped]
  refine ((sortBy_perm _ g).flatMap_right _).trans ?_
  refine List.Perm.flatMap_left g ?_
  intro ve _
  rw [entriesOfVol]
  refine ((sortBy_perm _ ve.2).flatMap_right _).trans ?_
  refine List.Perm.flatMap_left ve.2 ?_
  intro se _
  rw [entriesOfSec]
  exact (sortBy_perm _ se.2).map _

theorem parsedEntries_map_snd (paths : List String) :
    (parsedEntries paths).map Prod.snd =
      paths.filter (fun p => (parsePath p).isSome) := by
  induction paths with
  | nil => rfl
  | cons p ps ih =>
    rw [parsedEntries, List.filterMap_cons]
    cases hp : parsePath p with
    | none =>
      rw [List.filter_cons_of_neg (by simp [hp])]
      exact ih
    | some t =>
      rw [List.filter_cons_of_pos (by simp [hp])]
      show List.map Prod.snd ((t, p) ::
          List.filterMap (fun p => Option.map (fun t => (t, p)) (parsePath p)) ps) =
        p :: List.filter (fun p => (parsePath p).isSome) ps
      rw [List.map_cons]
      exact congrArg (List.cons p) ih

theorem entriesOfGrouped_parse {g : Grouped} (hg : GoodGrouped g) :
    ∀ e ∈ entriesOfGrouped g, parsePath e.2 = some e.1 := by
  intro e he
  rw [entriesOfGrouped] at he
  rcases List.mem_flatMap.mp he with ⟨ve, hve, he2⟩
  rw [entriesOfVol] at he2
  rcases List.mem_flatMap.mp he2 with ⟨se, hse, he3⟩
  rw [entriesOfSec] at he3
  rcases List.mem_map.mp he3 with ⟨x, hx, rfl⟩
  exact ((hg.1 ve hve).1 se hse) x hx

theorem filterMap_parse (l : List ((Nat × Nat × Nat) × String))
    (h : ∀ e ∈ l, parsePath e.2 = some e.1) :
    (l.map Prod.snd).filterMap parsePath = l.map Prod.fst := by
  induction l with
  | nil => rfl
  | cons e es ih =>
    simp only [List.map_cons, List.filterMap_cons, h e (List.mem_cons_self ..)]
    rw [ih (fun x hx => h x (List.mem_cons_of_mem _ hx))]

theorem sortedEntriesOf_pairwise {g : Grouped} (hg : GoodGrouped g) :
    (sortedEntriesOf g).Pairwise (fun a b => tripleLe a.1 b.1) := by
  rw [sortedEntriesOf]
  apply List.pairwise_flatMap.mpr
  constructor
  · intro ve hve
    have hgv : GoodVol ve.1 ve.2 :=
      hg.1 ve ((sortBy_perm _ g).mem_iff.mp hve)
    apply List.pairwise_flatMap.mpr
    constructor
    · intro se _
      apply List.pairwise_map.mpr
      have hs := sorted_sortBy (fun (a b : String × Nat) => decide (a.2 ≤ b.2))
        leSnd_trans leSnd_total se.2
      refine hs.imp ?_
      intro a b hab
      exact Or.inr ⟨rfl, Or.inr ⟨rfl, by simpa using hab⟩⟩
    · have hsorted := sorted_sortBy (fun (a b : Nat × SecGroup) => decide (a.1 ≤ b.1))
        leFst_trans leFst_total ve.2
      have hnodup : ((sortBy (fun (a b : Nat × SecGroup) => decide (a.1 ≤ b.1)) ve.2).map
          Prod.fst).Nodup :=
        (List.Perm.nodup_iff ((sortBy_perm _ ve.2).map _)).mpr hgv.2
      have hne := List.pairwise_map.mp hnodup
      have hstrict : (sortBy (fun (a b : Nat × SecGroup) => decide (a.1 ≤ b.1)) ve.2).Pairwise
          (fun a b => a.1 < b.1) :=
        (hsorted.and hne).imp (fun h => lt_of_le_of_ne (by simpa using h.1) h.2)
      refine hstrict.imp ?_
      intro se1 se2 hlt x hx y hy
      rcases List.mem_map.mp hx with ⟨a, _, rfl⟩
      rcases List.mem_map.mp hy with ⟨b, _, rfl⟩
      exact Or.inr ⟨rfl, Or.inl hlt⟩
  · have hsorted := sorted_sortBy (fun (a b : Nat × VolGroup) => decide (a.1 ≤ b.1))
      leFst_trans leFst_total g
    have hnodup : ((sortBy (fun (a b : Nat × VolGroup) => decide (a.1 ≤ b.1)) g).map
        Prod.fst).Nodup :=
      (List.Perm.nodup_iff ((sortBy_perm _ g).map _)).mpr hg.2
    have hne := List.pairwise_map.mp hnodup
    have hstrict : (sortBy (fun (a b : Nat × VolGroup) => decide (a.1 ≤ b.1)) g).Pairwise
        (fun a b => a.1 < b.1) :=
      (hsorted.and hne).imp (fun h => lt_of_le_of_ne (by simpa using h.1) h.2)
    refine hstrict.imp ?_
    intro ve1 ve2 hlt x hx y hy
    rcases List.mem_flatMap.mp hx with ⟨se, _, hx2⟩
    rcases List.mem_map.mp hx2 with ⟨a, _, rfl⟩
    rcases List.mem_flatMap.mp hy with ⟨te, _, hy2⟩
    rcases List.mem_map.mp hy2 with ⟨b, _, rfl⟩
    exact Or.inl hlt

/-- Claim C2: the derived processing order is a permutation of exactly the
input paths matching the `volume_<V>/section_<S>/page_<P>.json` pattern
(non-matching paths are silently omitted), and the parsed
(volume, section, page) triples along it are non-decreasing in
lexicographic order. -/
theorem claim_C2 (paths : List String) :
    sortedPaths paths ~ paths.filter (fun p => (parsePath p).isSome) ∧
    ((sortedPaths paths).filterMap parsePath).Pairwise tripleLe := by
  obtain ⟨hgood, hperm⟩ := groupFiles_good paths
  have heq := sortedPaths_eq paths
  have hsp : sortedEntriesOf (groupFiles paths) ~ entriesOfGrouped (groupFiles paths) :=
    sortedEntriesOf_perm _
  constructor
  · rw [heq, ← parsedEntries_map_snd]
    exact (hsp.map _).trans (hperm.map _)
  · rw [heq, filterMap_parse _
      (fun e he => entriesOfGrouped_parse hgood e (hsp.mem_iff.mp he))]
    exact List.pairwise_map.mpr (sortedEntriesOf_pairwise hgood)

end Noorlib
